import Mathlib

/-!
Shallow embedding of `gala/potential/potential/builtin/pybuiltin.py`:
the `HarmonicOscillatorPotential` and `KuzminPotential` classes.

Machine floats are modelled by real numbers; a numpy array of samples is a
`List` of samples, a length-`ndim` vector is a function `Fin n → ℝ`.
The unused time argument `t` of each evaluation method is kept in the
embedding to mirror the source signatures.
-/

namespace Gala

/-! ### HarmonicOscillatorPotential -/

/-- One row of `_energy`: `np.sum(0.5 * om[None]**2 * q**2, axis=1)`
restricted to a single sample row `x`. -/
def harmonicRowEnergy {n : ℕ} (omega x : Fin n → ℝ) : ℝ :=
  ∑ i, 0.5 * (omega i) ^ 2 * (x i) ^ 2

/-- Embeds `HarmonicOscillatorPotential._energy(q, t)`: one scalar per row,
summing `0.5 * omega_i^2 * x_i^2` over the axis `i`. -/
def harmonicEnergy {n : ℕ} (omega : Fin n → ℝ) (q : List (Fin n → ℝ))
    (_t : ℝ) : List ℝ :=
  q.map (harmonicRowEnergy omega)

/-- One row of `_gradient`: `om[None]**2 * q` restricted to a single row. -/
def harmonicRowGradient {n : ℕ} (omega x : Fin n → ℝ) : Fin n → ℝ :=
  fun i => (omega i) ^ 2 * x i

/-- Embeds `HarmonicOscillatorPotential._gradient(q, t)`. -/
def harmonicGradient {n : ℕ} (omega : Fin n → ℝ) (q : List (Fin n → ℝ))
    (_t : ℝ) : List (Fin n → ℝ) :=
  q.map (harmonicRowGradient omega)

/-- Embeds `HarmonicOscillatorPotential._hessian(q, t)`:
`np.tile(np.diag(om)[:, :, None], reps=(1, 1, q.shape[0]))`.
Entry `(i, j, k)` of the `ndim × ndim × N` output, where `N = q.shape[0]`:
`np.diag(om)` puts `om i` (NOT its square) on the diagonal, and `np.tile`
replicates that matrix along the sample axis. -/
def harmonicHessian {n : ℕ} (omega : Fin n → ℝ) (N : ℕ) :
    Fin n → Fin n → Fin N → ℝ :=
  fun i j _ => if i = j then omega i else 0

/-- Embeds `np.atleast_1d` applied to the `omega` parameter, which arrives either as
a scalar or as a sequence. -/
def atleast1d : ℝ ⊕ List ℝ → List ℝ
  | .inl x => [x]
  | .inr xs => xs

/-- The state `_setup_potential` leaves behind: the coerced `omega`
parameter and the derived `ndim`. -/
structure HOParams where
  omega : List ℝ
  ndim : ℕ

/-- Embeds `HarmonicOscillatorPotential._setup_potential`:
the stored omega becomes `np.atleast_1d` of the input and `ndim` its length. -/
def setupPotential (p : ℝ ⊕ List ℝ) : HOParams :=
  let om := atleast1d p
  ⟨om, om.length⟩

/-! ### KuzminPotential -/

/-- The denominator `np.sqrt(x**2 + y**2 + (a + np.abs(z))**2)` of
`KuzminPotential._energy`. -/
noncomputable def kuzminSqrtDenom (a x y z : ℝ) : ℝ :=
  Real.sqrt (x ^ 2 + y ^ 2 + (a + |z|) ^ 2)

/-- Embeds `KuzminPotential._energy(q, t)` on one sample:
`-self.G * m / np.sqrt(x**2 + y**2 + (a + np.abs(z))**2)`. -/
noncomputable def kuzminEnergy (G m a x y z : ℝ) : ℝ :=
  -G * m / kuzminSqrtDenom a x y z

/-- The per-sample factor of `KuzminPotential._gradient`:
`fac = self.G * m / (x**2 + y**2 + (a + np.abs(z))**2)**1.5`. -/
noncomputable def kuzminFac (G m a x y z : ℝ) : ℝ :=
  G * m / (x ^ 2 + y ^ 2 + (a + |z|) ^ 2) ^ (1.5 : ℝ)

/-- Embeds `KuzminPotential._gradient(q, t)` on one sample: `fac[None, ...] * q`,
i.e. the triple `(fac * x, fac * y, fac * z)`. -/
noncomputable def kuzminGradient (G m a x y z : ℝ) : ℝ × ℝ × ℝ :=
  (kuzminFac G m a x y z * x, kuzminFac G m a x y z * y,
   kuzminFac G m a x y z * z)

/-- Embeds `KuzminPotential._energy(q, t)` on a batch of samples `(x, y, z)`,
one scalar per sample. -/
noncomputable def kuzminEnergyBatch (G m a : ℝ) (q : List (ℝ × ℝ × ℝ))
    (_t : ℝ) : List ℝ :=
  q.map fun p => kuzminEnergy G m a p.1 p.2.1 p.2.2

/-! ### Theorems about the claims -/

/-- Claim C3: `_energy(q, t)` returns one scalar per input row, in input
order, each equal to `∑ i, 0.5 * omega_i^2 * x_i^2`; for
`omega = [1, 2]` and `q = [[1, 1]]` it returns `[2.5]`, for every `t`. -/
theorem C3_harmonic_energy {n : ℕ} (omega : Fin n → ℝ)
    (q : List (Fin n → ℝ)) (t : ℝ) :
    (harmonicEnergy omega q t).length = q.length ∧
    harmonicEnergy omega q t
      = q.map (fun x => ∑ i, 0.5 * (omega i) ^ 2 * (x i) ^ 2) ∧
    harmonicEnergy ![(1 : ℝ), 2] [![1, 1]] t = [2.5] := by
  refine ⟨by simp [harmonicEnergy], rfl, ?_⟩
  simp only [harmonicEnergy, harmonicRowEnergy, List.map_cons, List.map_nil,
    Fin.sum_univ_two]
  norm_num

/-- Claim C4: Kuzmin `_energy(q, t)` returns, per sample, the scalar
`-G*m / sqrt(x^2 + y^2 + (a + |z|)^2)`; with `G = m = a = 1` at the
sample `(0, 0, 0)` it returns `-1`. -/
theorem C4_kuzmin_energy (G m a t : ℝ) (q : List (ℝ × ℝ × ℝ)) :
    kuzminEnergyBatch G m a q t
      = q.map (fun p =>
          -G * m / Real.sqrt (p.1 ^ 2 + p.2.1 ^ 2 + (a + |p.2.2|) ^ 2)) ∧
    kuzminEnergy 1 1 1 0 0 0 = -1 := by
  refine ⟨rfl, ?_⟩
  unfold kuzminEnergy kuzminSqrtDenom
  rw [show (0 : ℝ) ^ 2 + 0 ^ 2 + (1 + |(0 : ℝ)|) ^ 2 = 1 by norm_num,
    Real.sqrt_one]
  norm_num

/-- Claim C6: negating `z` leaves Kuzmin energy and the `x`, `y` gradient
components unchanged and negates exactly the `z` gradient component. -/
theorem C6_kuzmin_z_symmetry (G m a x y z : ℝ) :
    kuzminEnergy G m a x y (-z) = kuzminEnergy G m a x y z ∧
    (kuzminGradient G m a x y (-z)).1 = (kuzminGradient G m a x y z).1 ∧
    (kuzminGradient G m a x y (-z)).2.1
      = (kuzminGradient G m a x y z).2.1 ∧
    (kuzminGradient G m a x y (-z)).2.2
      = -(kuzminGradient G m a x y z).2.2 := by
  have hden : kuzminSqrtDenom a x y (-z) = kuzminSqrtDenom a x y z := by
    unfold kuzminSqrtDenom; rw [abs_neg]
  have hfac : kuzminFac G m a x y (-z) = kuzminFac G m a x y z := by
    unfold kuzminFac; rw [abs_neg]
  refine ⟨?_, ?_, ?_, ?_⟩ <;>
    (simp only [kuzminEnergy, kuzminGradient, hden, hfac]; try ring)

/-- Claim C7: for the Kuzmin instance with `G = 1`, `m = 1`, `a = 0` at the
sample `(0, 0, 0)`, the denominator `sqrt(x^2 + y^2 + (a + |z|)^2)` is
zero, so the energy computation divides by zero. -/
theorem C7_kuzmin_singular_origin :
    kuzminSqrtDenom 0 0 0 0 = 0 ∧
    kuzminEnergy 1 1 0 0 0 0 = -1 * 1 / 0 := by
  have h : kuzminSqrtDenom 0 0 0 0 = 0 := by
    unfold kuzminSqrtDenom
    rw [show (0 : ℝ) ^ 2 + 0 ^ 2 + (0 + |(0 : ℝ)|) ^ 2 = 0 by norm_num,
      Real.sqrt_zero]
  exact ⟨h, by unfold kuzminEnergy; rw [h]⟩

/-- Claim C9: every per-sample harmonic energy value is nonnegative, and it
is zero exactly when `omega_i * x_i = 0` for every axis `i`; the batch
output is the per-row energy of each row. -/
theorem C9_harmonic_energy_nonneg {n : ℕ} (omega x : Fin n → ℝ)
    (q : List (Fin n → ℝ)) (t : ℝ) :
    harmonicEnergy omega q t = q.map (harmonicRowEnergy omega) ∧
    0 ≤ harmonicRowEnergy omega x ∧
    (harmonicRowEnergy omega x = 0 ↔ ∀ i, omega i * x i = 0) := by
  have hterm : ∀ i : Fin n,
      0.5 * (omega i) ^ 2 * (x i) ^ 2 = 0.5 * (omega i * x i) ^ 2 := by
    intro i; ring
  have hnn : ∀ i : Fin n, (0 : ℝ) ≤ 0.5 * (omega i) ^ 2 * (x i) ^ 2 := by
    intro i; positivity
  refine ⟨rfl, Finset.sum_nonneg fun i _ => hnn i, ?_⟩
  unfold harmonicRowEnergy
  rw [Finset.sum_eq_zero_iff_of_nonneg fun i _ => hnn i]
  constructor
  · intro h i
    have hi := h i (Finset.mem_univ i)
    rw [hterm i] at hi
    have : (omega i * x i) ^ 2 = 0 := by linarith
    exact pow_eq_zero_iff two_ne_zero |>.mp this
  · intro h i _
    rw [hterm i, h i]
    ring

/-- Claim C10: with `G > 0`, `m > 0`, `a ≥ 0` and a nonzero denominator,
Kuzmin `_energy` is strictly negative and the gradient factor `fac` is
strictly positive. -/
theorem C10_kuzmin_signs (G m a x y z : ℝ) (hG : 0 < G) (hm : 0 < m)
    (_ha : 0 ≤ a) (hd : x ^ 2 + y ^ 2 + (a + |z|) ^ 2 ≠ 0) :
    kuzminEnergy G m a x y z < 0 ∧ 0 < kuzminFac G m a x y z := by
  have hnn : (0 : ℝ) ≤ x ^ 2 + y ^ 2 + (a + |z|) ^ 2 := by positivity
  have hpos : (0 : ℝ) < x ^ 2 + y ^ 2 + (a + |z|) ^ 2 :=
    lt_of_le_of_ne hnn (Ne.symm hd)
  have hsq : 0 < kuzminSqrtDenom a x y z := Real.sqrt_pos.mpr hpos
  constructor
  · unfold kuzminEnergy
    have h1 : 0 < G * m / kuzminSqrtDenom a x y z :=
      div_pos (mul_pos hG hm) hsq
    have h2 : -G * m / kuzminSqrtDenom a x y z
        = -(G * m / kuzminSqrtDenom a x y z) := by ring
    rw [h2]
    linarith
  · unfold kuzminFac
    exact div_pos (mul_pos hG hm) (Real.rpow_pos_of_pos hpos _)

/-- Witness for C10 at `G = m = a = 1`, sample `(0, 0, 0)`. -/
theorem C10_kuzmin_signs_witness :
    (0 : ℝ) < 1 ∧ (0 : ℝ) ≤ 1 ∧
    ((0 : ℝ) ^ 2 + 0 ^ 2 + (1 + |(0 : ℝ)|) ^ 2 ≠ 0) ∧
    (kuzminEnergy 1 1 1 0 0 0 < 0 ∧ 0 < kuzminFac 1 1 1 0 0 0) :=
  ⟨by norm_num, by norm_num, by norm_num,
    C10_kuzmin_signs 1 1 1 0 0 0 (by norm_num) (by norm_num) (by norm_num)
      (by norm_num)⟩

/-- Counterexample to claim C8 as stated: for the (empty) sequence input
`omega = []`, setup stores an omega of length `0`, not of length `≥ 1`. -/
theorem C8_setup_counterexample :
    (setupPotential (Sum.inr [])).omega.length = 0 ∧
    ¬ 1 ≤ (setupPotential (Sum.inr [])).omega.length := by
  exact ⟨rfl, by simp [setupPotential, atleast1d]⟩

/-- Claim C8 (amended): whenever the coerced omega is nonempty — which
holds for every scalar input and every nonempty sequence input — setup
stores an omega of length `≥ 1`; `ndim` always equals the length of the
stored omega, and running setup again on the stored omega changes nothing. -/
theorem C8_setup_amended (p : ℝ ⊕ List ℝ) (h : atleast1d p ≠ []) :
    (setupPotential p).ndim = (setupPotential p).omega.length ∧
    1 ≤ (setupPotential p).omega.length ∧
    setupPotential (Sum.inr (setupPotential p).omega) = setupPotential p := by
  refine ⟨rfl, ?_, rfl⟩
  exact List.length_pos.mpr h

/-- Witness for C8 (amended) at the scalar input `omega = 1`. -/
theorem C8_setup_amended_witness :
    atleast1d (Sum.inl (1 : ℝ)) ≠ [] ∧
    ((setupPotential (Sum.inl (1 : ℝ))).ndim
        = (setupPotential (Sum.inl (1 : ℝ))).omega.length ∧
      1 ≤ (setupPotential (Sum.inl (1 : ℝ))).omega.length ∧
      setupPotential (Sum.inr (setupPotential (Sum.inl (1 : ℝ))).omega)
        = setupPotential (Sum.inl (1 : ℝ))) :=
  ⟨by simp [atleast1d],
    C8_setup_amended (Sum.inl 1) (by simp [atleast1d])⟩

/-- Splitting the harmonic energy of one row at axis `i`: as a function of the
`i`-th coordinate it is a parabola plus a constant. -/
theorem harmonicRowEnergy_update {n : ℕ} (omega x : Fin n → ℝ) (i : Fin n)
    (s : ℝ) :
    harmonicRowEnergy omega (Function.update x i s)
      = 0.5 * (omega i) ^ 2 * s ^ 2
        + ∑ j ∈ Finset.univ.erase i, 0.5 * (omega j) ^ 2 * (x j) ^ 2 := by
  unfold harmonicRowEnergy
  rw [← Finset.add_sum_erase _ _ (Finset.mem_univ i)]
  congr 1
  · rw [Function.update_same]
  · refine Finset.sum_congr rfl fun j hj => ?_
    rw [Function.update_noteq (Finset.ne_of_mem_erase hj)]

/-- Claim C5: `_gradient(q, t)` returns, per sample row `x`, the vector
`(omega_i^2 * x_i)_i`; this is the partial derivative of the per-row
energy with respect to each coordinate; for `omega = [1]`, `q = [[2]]` it
returns `[[2]]`. -/
theorem C5_harmonic_gradient {n : ℕ} (omega : Fin n → ℝ)
    (q : List (Fin n → ℝ)) (t : ℝ) :
    harmonicGradient omega q t
      = q.map (fun x i => (omega i) ^ 2 * x i) ∧
    (∀ (x : Fin n → ℝ) (i : Fin n),
      HasDerivAt (fun s => harmonicRowEnergy omega (Function.update x i s))
        (harmonicRowGradient omega x i) (x i)) ∧
    harmonicGradient ![(1 : ℝ)] [![2]] t = [![2]] := by
  refine ⟨rfl, ?_, ?_⟩
  · intro x i
    have hpar : HasDerivAt (fun s : ℝ =>
        0.5 * (omega i) ^ 2 * s ^ 2
          + ∑ j ∈ Finset.univ.erase i, 0.5 * (omega j) ^ 2 * (x j) ^ 2)
        (harmonicRowGradient omega x i) (x i) := by
      have h1 : HasDerivAt (fun s : ℝ => s ^ 2) (2 * x i) (x i) := by
        simpa using hasDerivAt_pow 2 (x i)
      have h2 := (h1.const_mul (0.5 * (omega i) ^ 2)).add_const
        (∑ j ∈ Finset.univ.erase i, 0.5 * (omega j) ^ 2 * (x j) ^ 2)
      convert h2 using 1
      unfold harmonicRowGradient
      ring
    simpa only [harmonicRowEnergy_update] using hpar
  · have hrow : harmonicRowGradient ![(1 : ℝ)] ![2] = ![2] := by
      funext i
      fin_cases i
      simp [harmonicRowGradient]
    simp [harmonicGradient, hrow]

/-- Claim C1 (code bug): for `omega = [2]` and one sample, the Hessian entry of the code `(0, 0, 0)` is `omega_0 = 2` (from `np.diag(om)`), while the
true Hessian entry — the derivative of the gradient component the code itself returns
with respect to the coordinate — is `omega_0^2 = 4`; so the entry is not
`omega_0^2` as the claim states. -/
theorem C1_hessian_bug :
    harmonicHessian ![(2 : ℝ)] 1 0 0 0 = 2 ∧
    HasDerivAt (fun s : ℝ => harmonicRowGradient ![(2 : ℝ)] ![s] 0) 4 1 ∧
    harmonicHessian ![(2 : ℝ)] 1 0 0 0 ≠ (![(2 : ℝ)] 0) ^ 2 := by
  have h0 : harmonicHessian ![(2 : ℝ)] 1 0 0 0 = 2 := by
    simp [harmonicHessian]
  refine ⟨h0, ?_, ?_⟩
  · have hfun : (fun s : ℝ => harmonicRowGradient ![(2 : ℝ)] ![s] 0)
        = fun s : ℝ => 4 * s := by
      funext s
      simp [harmonicRowGradient]
      norm_num
    rw [hfun]
    simpa using (hasDerivAt_id (1 : ℝ)).const_mul 4
  · rw [h0]
    norm_num

/-- Evaluating the numpy exponent `** 1.5` at the concrete denominator
value `4`. -/
theorem four_rpow_threeHalves : (4 : ℝ) ^ (1.5 : ℝ) = 8 := by
  have e1 : (1.5 : ℝ) = (1 / 2 : ℝ) * 3 := by norm_num
  rw [e1, Real.rpow_mul (by norm_num : (0 : ℝ) ≤ 4), ← Real.sqrt_eq_rpow,
    show (4 : ℝ) = 2 ^ 2 by norm_num,
    Real.sqrt_sq (by norm_num : (0 : ℝ) ≤ 2),
    show (3 : ℝ) = ((3 : ℕ) : ℝ) by norm_num, Real.rpow_natCast]
  norm_num

/-- Claim C2 (code bug): with `G = 1`, `m = 1`, `a = 1` at the sample
`(0, 0, 1)`, the partial derivative of Kuzmin `_energy` with respect to
`z` is `1/4`, but the `z`-component the code returns from `_gradient` (which is
`fac * z`) is `1/8`; the returned vector is not the vector of partial
derivatives of the energy. -/
theorem C2_kuzmin_gradient_bug :
    HasDerivAt (fun s : ℝ => kuzminEnergy 1 1 1 0 0 s) (1 / 4) 1 ∧
    (kuzminGradient 1 1 1 0 0 1).2.2 = 1 / 8 ∧
    ((1 : ℝ) / 8) ≠ 1 / 4 := by
  refine ⟨?_, ?_, by norm_num⟩
  · have h1 : HasDerivAt (fun s : ℝ => 1 + s) 1 1 := by
      simpa using (hasDerivAt_id (1 : ℝ)).const_add 1
    have h2 := (h1.inv (by norm_num : (1 : ℝ) + 1 ≠ 0)).neg
    have hg : HasDerivAt (fun s : ℝ => -(1 + s)⁻¹) (1 / 4 : ℝ) 1 := by
      convert h2 using 1
      norm_num
    refine hg.congr_of_eventuallyEq ?_
    filter_upwards [eventually_gt_nhds (show (0 : ℝ) < 1 by norm_num)]
      with s hs
    unfold kuzminEnergy kuzminSqrtDenom
    rw [abs_of_pos hs,
      show (0 : ℝ) ^ 2 + 0 ^ 2 + (1 + s) ^ 2 = (1 + s) ^ 2 by ring,
      Real.sqrt_sq (by linarith : (0 : ℝ) ≤ 1 + s)]
    ring
  · show kuzminFac 1 1 1 0 0 1 * 1 = 1 / 8
    unfold kuzminFac
    rw [abs_one,
      show (0 : ℝ) ^ 2 + 0 ^ 2 + (1 + 1) ^ 2 = 4 by norm_num,
      four_rpow_threeHalves]
    norm_num

end Gala
